import Mathlib

/-!
Verification of the C++ game-code analysis/suggestion pipeline.

Shallow embedding of the Python sources `code_analyzer.py` and
`code_suggester.py`.  Strings are embedded as `List Char`; Python regular
expressions from the source are embedded by a small derivative-based matcher
specialised to the exact patterns appearing in the source.  Python `x in s`
on strings is substring containment (`strHas`), while `x in xs` on a list of
strings is membership, i.e. whole-line equality (`pyInList`) -- the two are
deliberately kept distinct because the source uses both.
-/

namespace GameCode

/-! ## Basic string utilities (Python `str` operations on `List Char`) -/

/-- ASCII word characters, the `\w` class of the Python patterns used here. -/
def isWordChar (c : Char) : Bool := c.isAlpha || c.isDigit || c == '_'

/-- ASCII whitespace, the `\s` class and the set stripped by `str.strip()`. -/
def isSpaceChar (c : Char) : Bool :=
  c == ' ' || c == '\t' || c == '\n' || c == '\r' || c == '\x0b' || c == '\x0c'

/-- `strStarts n h` is true when `n` is a prefix of `h`. -/
def strStarts : List Char → List Char → Bool
  | [], _ => true
  | _ :: _, [] => false
  | c :: cs, d :: ds => c == d && strStarts cs ds

/-- Python `n in h` for strings: `n` occurs as a contiguous substring of `h`. -/
def strHas (n : List Char) : List Char → Bool
  | [] => strStarts n []
  | h@(_ :: t) => strStarts n h || strHas n t

/-- Python `x in w` for a list of strings: membership, whole-string equality. -/
def pyInList (x : List Char) (w : List (List Char)) : Bool := w.any (fun l => l == x)

/-- Python `str.strip()`: remove leading and trailing whitespace. -/
def pyStrip (s : List Char) : List Char :=
  ((s.dropWhile isSpaceChar).reverse.dropWhile isSpaceChar).reverse

/-- Python `code.split('\n')`: split on every newline; the result is nonempty
and has one entry per newline plus one. -/
def splitNl : List Char → List (List Char)
  | [] => [[]]
  | c :: cs =>
    if c = '\n' then [] :: splitNl cs
    else
      match splitNl cs with
      | [] => [[c]]
      | l :: ls => (c :: l) :: ls

/-- Python slice `xs[lo:hi]` for `lo ≤ hi` (`Nat` subtraction clamps at 0 the
same way the source clamps with `max(0, i-k)`). -/
def pySlice (xs : List (List Char)) (lo hi : Nat) : List (List Char) :=
  (xs.drop lo).take (hi - lo)

/-! ## A small regular-expression engine

Only what the source's patterns need: character classes, sequencing,
alternation and Kleene star, with Brzozowski derivatives giving an executable
matcher.  `reSearch` is Python `re.search(pat, s) is not None`; `reSearchWB`
is the same for a pattern beginning with a word boundary `\b` followed by a
word character, i.e. the match position must be the string start or preceded
by a non-word character. -/

inductive RE where
  | emp : RE
  | eps : RE
  | cls : (Char → Bool) → RE
  | seq : RE → RE → RE
  | alt : RE → RE → RE
  | star : RE → RE

def nullable : RE → Bool
  | .emp => false
  | .eps => true
  | .cls _ => false
  | .seq a b => nullable a && nullable b
  | .alt a b => nullable a || nullable b
  | .star _ => true

def deriv : RE → Char → RE
  | .emp, _ => .emp
  | .eps, _ => .emp
  | .cls p, c => if p c then .eps else .emp
  | .seq a b, c => if nullable a then .alt (.seq (deriv a c) b) (deriv b c) else .seq (deriv a c) b
  | .alt a b, c => .alt (deriv a c) (deriv b c)
  | .star a, c => .seq (deriv a c) (.star a)

/-- Some prefix of the input matches the pattern. -/
def matchHere (r : RE) : List Char → Bool
  | [] => nullable r
  | c :: cs => nullable r || matchHere (deriv r c) cs

/-- A match starts at some position: Python `re.search`. -/
def reSearch (r : RE) : List Char → Bool
  | [] => matchHere r []
  | s@(_ :: cs) => matchHere r s || reSearch r cs

/-- Positions after the first where the previous character is not a word
character (candidate `\b` positions other than the string start). -/
def reSearchWBAux (r : RE) : List Char → Bool
  | [] => false
  | c :: cs => (!isWordChar c && matchHere r cs) || reSearchWBAux r cs

/-- `re.search` for a pattern of the form `\b\w...`: a match must start at the
beginning or right after a non-word character. -/
def reSearchWB (r : RE) (s : List Char) : Bool :=
  matchHere r s || reSearchWBAux r s

def rePlus (r : RE) : RE := .seq r (.star r)

def reOpt (r : RE) : RE := .alt r .eps

def reChar (c : Char) : RE := .cls (fun d => d == c)

def reStr : List Char → RE
  | [] => .eps
  | c :: cs => .seq (reChar c) (reStr cs)

def wc : RE := .cls isWordChar
def sc : RE := .cls isSpaceChar
def dc : RE := .cls Char.isDigit

/-! ## The rule engine: `analyze_cpp_code` (code_analyzer.py)

Detector patterns, embedded from the source regexes verbatim. -/

/-- `raw_pointer_pattern = r'\b(\w+)\s*\*\s*(\w+)\s*='` (sans boundary, which
`reSearchWB` supplies). -/
def raw_pointer_pattern : RE :=
  .seq (rePlus wc) (.seq (.star sc) (.seq (reChar '*')
    (.seq (.star sc) (.seq (rePlus wc) (.seq (.star sc) (reChar '='))))))

/-- `c_array_pattern = r'\b(\w+)\s+(\w+)\[(\d+)\]'` (sans boundary). -/
def c_array_pattern : RE :=
  .seq (rePlus wc) (.seq (rePlus sc) (.seq (rePlus wc)
    (.seq (reChar '[') (.seq (rePlus dc) (reChar ']')))))

/-- `r'(==|!=)\s*\d*\.\d+f?'` -/
def float_cmp_pattern : RE :=
  .seq (.alt (reStr "==".toList) (reStr "!=".toList))
    (.seq (.star sc) (.seq (.star dc) (.seq (reChar '.')
      (.seq (rePlus dc) (reOpt (reChar 'f'))))))

/-- `r'[^\.]\d+\.\d+f?'` -/
def magic_number_pattern : RE :=
  .seq (.cls (fun c => !(c == '.'))) (.seq (rePlus dc)
    (.seq (reChar '.') (.seq (rePlus dc) (reOpt (reChar 'f')))))

/-- `r'const\s+float'` -/
def const_float_pattern : RE :=
  .seq (reStr "const".toList) (.seq (rePlus sc) (reStr "float".toList))

/-- `r'#define'` -/
def define_pattern : RE := reStr "#define".toList

/-- `r'(\w+)\s+(\w+);'` -/
def uninit_pattern : RE :=
  .seq (rePlus wc) (.seq (rePlus sc) (.seq (rePlus wc) (reChar ';')))

/-- `r'='` -/
def eq_pattern : RE := reChar '='

/-- `r'class|struct|enum'` -/
def cse_pattern : RE :=
  .alt (reStr "class".toList) (.alt (reStr "struct".toList) (reStr "enum".toList))

/-- `rf'{type_name}\s+\w+;'` -/
def prim_pattern (type_name : List Char) : RE :=
  .seq (reStr type_name) (.seq (rePlus sc) (.seq (rePlus wc) (reChar ';')))

def primitive_types : List (List Char) :=
  ["int".toList, "float".toList, "double".toList, "bool".toList, "char".toList]

/-- One analysis finding: `{"line": i+1, "code": line.strip(), "issue": ...,
"suggestion": ...}`. -/
structure Finding where
  line : Nat
  code : List Char
  issue : List Char
  suggestion : List Char
deriving DecidableEq, Repr

/-- The six-category result dictionary of `analyze_cpp_code`. -/
structure Analysis where
  performance_issues : List Finding
  memory_management : List Finding
  code_style : List Finding
  modern_cpp : List Finding
  game_specific : List Finding
  potential_bugs : List Finding
deriving DecidableEq, Repr

/-- Raw-pointer check, line 29 of code_analyzer.py. -/
def rawPtrCheck (line : List Char) : Bool :=
  reSearchWB raw_pointer_pattern line && !strHas "std::".toList line &&
    !strHas "shared_ptr".toList line && !strHas "unique_ptr".toList line

/-- C-style array check, line 40. -/
def cArrayCheck (line : List Char) : Bool :=
  reSearchWB c_array_pattern line && !strHas "char".toList line

/-- Index-based-loop check, line 50. -/
def idxLoopCheck (line : List Char) : Bool :=
  strHas "for".toList line && strHas "; i < ".toList line && strHas ".size()".toList line

/-- Float-comparison check, line 81. -/
def floatCmpCheck (line : List Char) : Bool := reSearch float_cmp_pattern line

/-- Magic-number check, line 90. -/
def magicNumCheck (line : List Char) : Bool :=
  reSearch magic_number_pattern line && !reSearch const_float_pattern line &&
    !reSearch define_pattern line

/-- One `for i, line in enumerate(lines)` loop appending a finding with fixed
issue/suggestion text whenever a per-line condition holds. -/
def scanAux (p : List Char → Bool) (iss sug : List Char) : Nat → List (List Char) → List Finding
  | _, [] => []
  | n, l :: ls =>
    (if p l then [⟨n + 1, pyStrip l, iss, sug⟩] else []) ++ scanAux p iss sug (n + 1) ls

/-- Findings of the sqrt-in-loop check at index `i` (code_analyzer.py line 61):
`'sqrt' in line and ('for' in lines[max(0, i-5):i] or 'while' in
lines[max(0, i-5):i])`.  Note that the window test is Python list membership:
a preceding line must be exactly equal to the keyword. -/
def sqrtFindings (lines : List (List Char)) (i : Nat) (line : List Char) : List Finding :=
  if strHas "sqrt".toList line &&
      (pyInList "for".toList (pySlice lines (i - 5) i) ||
        pyInList "while".toList (pySlice lines (i - 5) i)) then
    [⟨i + 1, pyStrip line, "Expensive sqrt operation in loop".toList,
      "For magnitude comparisons, consider using squared magnitude (x*x + y*y) instead of sqrt(x*x + y*y)".toList⟩]
  else []

/-- Findings of the string-ops check at index `i` (line 70): Python parses the
condition as `'std::string' in line or ('+=' in line and '\"' in line)`, and
the window test again is list membership. -/
def stringOpFindings (lines : List (List Char)) (i : Nat) (line : List Char) : List Finding :=
  if (strHas "std::string".toList line ||
        (strHas "+=".toList line && strHas "\"".toList line)) &&
      (pyInList "update".toList (pySlice lines (i - 10) i) ||
        pyInList "render".toList (pySlice lines (i - 10) i)) then
    [⟨i + 1, pyStrip line, "String operations in performance-critical code".toList,
      "String operations can be expensive. Consider moving string manipulations outside of update/render loops".toList⟩]
  else []

/-- Findings appended to performance_issues for index `i` (loop at lines 59-76). -/
def perfFindings (lines : List (List Char)) (i : Nat) (line : List Char) : List Finding :=
  sqrtFindings lines i line ++ stringOpFindings lines i line

/-- Findings of the uninitialized-variable check at index `i` (lines 101-111):
one finding is appended per primitive type whose pattern matches. -/
def uninitFindings (i : Nat) (line : List Char) : List Finding :=
  if reSearch uninit_pattern line && !reSearch eq_pattern line &&
      !reSearch cse_pattern line then
    primitive_types.filterMap fun type_name =>
      if reSearch (prim_pattern type_name) line then
        some ⟨i + 1, pyStrip line, "Uninitialized primitive variable".toList,
          "Initialize variables at declaration to avoid undefined behavior".toList⟩
      else none
  else []

/-- Findings of the null-dereference check at index `i` (line 114): `'->' in
line and 'if' not in lines[max(0, i-3):i] and 'nullptr' not in ... and 'NULL'
not in ...` -- the window tests are list membership (whole-line equality). -/
def nullDerefFindings (lines : List (List Char)) (i : Nat) (line : List Char) : List Finding :=
  if strHas "->".toList line && !pyInList "if".toList (pySlice lines (i - 3) i) &&
      !pyInList "nullptr".toList (pySlice lines (i - 3) i) &&
      !pyInList "NULL".toList (pySlice lines (i - 3) i) then
    [⟨i + 1, pyStrip line, "Potential null pointer dereference".toList,
      "Add null check before dereferencing pointers".toList⟩]
  else []

/-- Findings appended to potential_bugs for index `i` (loop at lines 99-120). -/
def bugFindings (lines : List (List Char)) (i : Nat) (line : List Char) : List Finding :=
  uninitFindings i line ++ nullDerefFindings lines i line

/-- A loop over `enumerate(lines)` whose body may consult the whole `lines`
list (for the sliding windows). -/
def scanWin (g : List (List Char) → Nat → List Char → List Finding)
    (lines : List (List Char)) : Nat → List (List Char) → List Finding
  | _, [] => []
  | i, l :: ls => g lines i l ++ scanWin g lines (i + 1) ls

def rawPtrSuggestion : List Char :=
  "Consider using smart pointers (std::unique_ptr or std::shared_ptr) for automatic memory management".toList

def cArraySuggestion : List Char :=
  "Consider using std::array for fixed-size arrays or std::vector for dynamic arrays".toList

def idxLoopSuggestion : List Char :=
  "Consider using range-based for loop: for (auto& element : container)".toList

def floatCmpSuggestion : List Char :=
  "Use epsilon-based comparison for floating-point values to avoid precision issues".toList

def magicNumSuggestion : List Char :=
  "Define named constants for magic numbers to improve code readability and maintainability".toList

/-- The memory_management findings (loop at lines 28-35). -/
def memFindingsOf (lines : List (List Char)) : List Finding :=
  scanAux rawPtrCheck "Raw pointer usage".toList rawPtrSuggestion 0 lines

/-- The C-style-array findings (loop at lines 39-46), first block of modern_cpp. -/
def arrayFindingsOf (lines : List (List Char)) : List Finding :=
  scanAux cArrayCheck "C-style array usage".toList cArraySuggestion 0 lines

/-- The index-loop findings (loop at lines 49-56), second block of modern_cpp. -/
def idxLoopFindingsOf (lines : List (List Char)) : List Finding :=
  scanAux idxLoopCheck "Index-based loop over container".toList idxLoopSuggestion 0 lines

/-- The game_specific findings (float comparisons, lines 81-87). -/
def gameFindingsOf (lines : List (List Char)) : List Finding :=
  scanAux floatCmpCheck "Direct floating-point comparison".toList floatCmpSuggestion 0 lines

/-- The code_style findings (magic numbers, lines 90-96). -/
def styleFindingsOf (lines : List (List Char)) : List Finding :=
  scanAux magicNumCheck "Magic number usage".toList magicNumSuggestion 0 lines

/-- `analyze_cpp_code` of code_analyzer.py.  Each dictionary entry collects the
appends its loops perform in program order; modern_cpp receives the array-loop
findings first and the index-loop findings second. -/
def analyze_cpp_code (code : List Char) : Analysis :=
  let lines := splitNl code
  { performance_issues := scanWin perfFindings lines 0 lines
  , memory_management := memFindingsOf lines
  , code_style := styleFindingsOf lines
  , modern_cpp := arrayFindingsOf lines ++ idxLoopFindingsOf lines
  , game_specific := gameFindingsOf lines
  , potential_bugs := scanWin bugFindings lines 0 lines }

/-- `analysis.items()`: the dictionary's key/value pairs in insertion order. -/
def itemsOf (a : Analysis) : List (List Char × List Finding) :=
  [("performance_issues".toList, a.performance_issues),
   ("memory_management".toList, a.memory_management),
   ("code_style".toList, a.code_style),
   ("modern_cpp".toList, a.modern_cpp),
   ("game_specific".toList, a.game_specific),
   ("potential_bugs".toList, a.potential_bugs)]

/-! ## Response extraction: `extract_code_and_explanation` (code_suggester.py)

The source uses `re.search(r"```cpp\n(.*?)```", text, re.DOTALL)` and
`re.sub` with the same pattern.  Embedded directly: `cppMatch` finds the
leftmost match position and, there, the shortest capture followed by three
backticks (exactly the leftmost/non-greedy semantics of the pattern, whose
capture class `.` with DOTALL is every character); `cppSubAll` removes every
non-overlapping match left to right, as `re.sub` does. -/

/-- A prefix-of-iff characterisation of `strStarts`. -/
theorem strStarts_iff {n h : List Char} : strStarts n h = true ↔ ∃ r, h = n ++ r := by
  induction n generalizing h with
  | nil => simp [strStarts]
  | cons c cs ih =>
    cases h with
    | nil => simp [strStarts]
    | cons d ds =>
      simp only [strStarts, Bool.and_eq_true, beq_iff_eq, ih]
      constructor
      · rintro ⟨rfl, r, rfl⟩; exact ⟨r, rfl⟩
      · rintro ⟨r, hr⟩
        cases hr
        exact ⟨rfl, r, rfl⟩

/-- Find the first occurrence of `n`: returns the part before it and the part
after it. -/
def splitFirst (n : List Char) : List Char → Option (List Char × List Char)
  | [] => if strStarts n [] then some ([], []) else none
  | h@(c :: t) =>
    if strStarts n h then some ([], h.drop n.length)
    else
      match splitFirst n t with
      | some (b, a) => some (c :: b, a)
      | none => none

theorem splitFirst_spec {n h b a : List Char} (hs : splitFirst n h = some (b, a)) :
    h = b ++ n ++ a := by
  induction h generalizing b a with
  | nil =>
    simp only [splitFirst] at hs
    split at hs
    · rename_i hst
      obtain ⟨r, hr⟩ := strStarts_iff.mp hst
      cases hs
      have hn : n = [] ∧ r = [] := by simpa using hr.symm
      simp [hn.1]
    · cases hs
  | cons c t ih =>
    simp only [splitFirst] at hs
    split at hs
    · rename_i hst
      obtain ⟨r, hr⟩ := strStarts_iff.mp hst
      rw [hr] at hs ⊢
      rw [List.drop_left] at hs
      cases hs
      simp
    · revert hs
      cases hsp : splitFirst n t with
      | none => intro hs; cases hs
      | some p =>
        obtain ⟨b', a'⟩ := p
        intro hs
        cases hs
        simpa using ih hsp

def tickStr : List Char := "```".toList

def cppOpener : List Char := "```cpp\n".toList

/-- Leftmost match of the fenced-block pattern: `(before, capture, after)`
with the input equal to `before ++ "```cpp\n" ++ capture ++ "```" ++ after`
and `before` minimal, `capture` minimal at that position. -/
def cppMatch : List Char → Option (List Char × List Char × List Char)
  | [] => none
  | h@(c :: t) =>
    if strStarts cppOpener h then
      match splitFirst tickStr (h.drop cppOpener.length) with
      | some (cap, after) => some ([], cap, after)
      | none =>
        match cppMatch t with
        | some (b, cap, a) => some (c :: b, cap, a)
        | none => none
    else
      match cppMatch t with
      | some (b, cap, a) => some (c :: b, cap, a)
      | none => none

theorem cppMatch_spec {h b cap a : List Char} (hm : cppMatch h = some (b, cap, a)) :
    h = b ++ cppOpener ++ cap ++ tickStr ++ a := by
  induction h generalizing b cap a with
  | nil => cases hm
  | cons c t ih =>
    simp only [cppMatch] at hm
    split at hm
    · rename_i hst
      obtain ⟨r, hr⟩ := strStarts_iff.mp hst
      revert hm
      rw [hr, List.drop_left]
      cases hsp : splitFirst tickStr r with
      | some p =>
        obtain ⟨cap', after'⟩ := p
        intro hm
        cases hm
        simp [splitFirst_spec hsp]
      | none =>
        cases hm2 : cppMatch t with
        | none => intro hm; cases hm
        | some q =>
          obtain ⟨b', cap', a'⟩ := q
          intro hm
          cases hm
          rw [← hr, ih hm2]
          simp
    · revert hm
      cases hm2 : cppMatch t with
      | none => intro hm; cases hm
      | some q =>
        obtain ⟨b', cap', a'⟩ := q
        intro hm
        cases hm
        have := ih hm2
        simp [this]

theorem cppMatch_after_lt {h b cap a : List Char} (hm : cppMatch h = some (b, cap, a)) :
    a.length < h.length := by
  have := congrArg List.length (cppMatch_spec hm)
  simp only [List.length_append] at this
  have hop : cppOpener.length = 7 := by decide
  have htk : tickStr.length = 3 := by decide
  omega

/-- `re.sub(code_pattern, "", text)`: delete every (leftmost, non-overlapping)
match, continuing after each match end. -/
def cppSubAll (t : List Char) : List Char :=
  match hm : cppMatch t with
  | none => t
  | some (b, _, a) => b ++ cppSubAll a
termination_by t.length
decreasing_by exact cppMatch_after_lt hm

theorem cppSubAll_of_none {t : List Char} (hm : cppMatch t = none) : cppSubAll t = t := by
  rw [cppSubAll, hm]

theorem cppSubAll_of_some {t b cap a : List Char} (hm : cppMatch t = some (b, cap, a)) :
    cppSubAll t = b ++ cppSubAll a := by
  rw [cppSubAll, hm]

/-- `extract_code_and_explanation` of code_suggester.py: on a match, the
improved code is the stripped capture and the explanation is the text with
every match removed, stripped; with no match, empty code and the unmodified
text. -/
def extract_code_and_explanation (response_text : List Char) : List Char × List Char :=
  match cppMatch response_text with
  | some (_, cap, _) => (pyStrip cap, pyStrip (cppSubAll response_text))
  | none => ([], response_text)

/-! ## Analysis formatting: `format_analysis_for_prompt` (code_suggester.py) -/

/-- Python `str.title()` restricted to its behaviour on ASCII letters: the
first letter of each letter-run is uppercased, later ones lowercased. -/
def pyTitleAux : Bool → List Char → List Char
  | _, [] => []
  | prevAlpha, c :: cs =>
    if c.isAlpha then
      (if prevAlpha then c.toLower else c.toUpper) :: pyTitleAux true cs
    else c :: pyTitleAux false cs

def pyTitle (s : List Char) : List Char := pyTitleAux false s

/-- Decimal rendering of a line number, as a Python f-string interpolates it. -/
def natChars (n : Nat) : List Char := (Nat.repr n).toList

/-- `f"## {category.replace('_', ' ').title()}"` -/
def catHeading (category : List Char) : List Char :=
  "## ".toList ++ pyTitle (category.map fun c => if c == '_' then ' ' else c)

/-- `f"- Line {issue['line']}: {issue['issue']}"` -/
def dashLineOf (f : Finding) : List Char :=
  "- Line ".toList ++ natChars f.line ++ ": ".toList ++ f.issue

/-- `f"  Code: {issue['code']}"` -/
def codeLineOf (f : Finding) : List Char := "  Code: ".toList ++ f.code

/-- `f"  Suggestion: {issue['suggestion']}"` -/
def suggLineOf (f : Finding) : List Char := "  Suggestion: ".toList ++ f.suggestion

/-- The inner `for issue in issues` loop, appending three lines per finding. -/
def fmtEntryLoop : List Finding → List (List Char) → List (List Char)
  | [], result => result
  | iss :: rest, result =>
    fmtEntryLoop rest (result ++ [dashLineOf iss, codeLineOf iss, suggLineOf iss])

/-- The outer `for category, issues in analysis.items()` loop: categories with
no findings are skipped; otherwise a heading, the findings, and a blank line
are appended. -/
def fmtCatLoop : List (List Char × List Finding) → List (List Char) → List (List Char)
  | [], result => result
  | (category, issues) :: rest, result =>
    if issues.isEmpty then fmtCatLoop rest result
    else fmtCatLoop rest (fmtEntryLoop issues (result ++ [catHeading category]) ++ [[]])

/-- `"\n".join(result)` -/
def joinNl : List (List Char) → List Char
  | [] => []
  | [l] => l
  | l :: ls@(_ :: _) => l ++ '\n' :: joinNl ls

/-- `format_analysis_for_prompt` of code_suggester.py. -/
def format_analysis_for_prompt (analysis : Analysis) : List Char :=
  joinNl (fmtCatLoop (itemsOf analysis) [])

/-! ## Diff rendering: `generate_diff` (code_analyzer.py)

`generate_diff` delegates to the standard library collaborator
`difflib.HtmlDiff().make_file`, which is not part of src/. -/

/-- A character that does not terminate a line. -/
def notEol (c : Char) : Bool := !(c == '\n' || c == '\r')

/-- Drop one line terminator (`\r\n`, `\n` or `\r`) from the front. -/
def dropEol : List Char → List Char
  | [] => []
  | c :: rest =>
    if c = '\r' then
      match rest with
      | d :: rest' => if d = '\n' then rest' else rest
      | [] => []
    else rest

theorem dropEol_cons_le (e : Char) (d : List Char) :
    (dropEol (e :: d)).length ≤ d.length := by
  cases d with
  | nil => by_cases he : e = '\r' <;> simp [dropEol, he]
  | cons f d' =>
    by_cases he : e = '\r'
    · by_cases hf : f = '\n' <;> simp [dropEol, he, hf]
    · simp [dropEol, he]

theorem dropEol_dropWhile_lt (c : Char) (t : List Char) :
    (dropEol ((c :: t).dropWhile notEol)).length < (c :: t).length := by
  have hle : ((c :: t).dropWhile notEol).length ≤ (c :: t).length :=
    (List.dropWhile_suffix notEol).length_le
  cases hd : (c :: t).dropWhile notEol with
  | nil => simp [dropEol]
  | cons e d' =>
    have := dropEol_cons_le e d'
    rw [hd] at hle
    simp at hle
    simp
    omega

/-- Python `str.splitlines()`: split on `\n`, `\r\n` or `\r`, with no empty
final entry for a trailing terminator and `[]` for the empty string. -/
def pySplitlines : List Char → List (List Char)
  | [] => []
  | c :: t =>
    (c :: t).takeWhile notEol :: pySplitlines (dropEol ((c :: t).dropWhile notEol))
termination_by s => s.length
decreasing_by exact dropEol_dropWhile_lt _ _

/-- Modelled from the spec: the standard-library collaborator
`difflib.HtmlDiff().make_file` invoked by `generate_diff` is not part of
src/.  Following section 4.5 of the spec, the model aligns the two line
sequences by a longest common subsequence and renders a two-pane HTML table
with distinct markings for removals and insertions inside a fixed page frame
(the bounded-context trimming of the real collaborator is not modelled).
A longest common subsequence of two line lists: -/
def lcs : List (List Char) → List (List Char) → List (List Char)
  | [], _ => []
  | _ :: _, [] => []
  | a :: as, b :: bs =>
    if a = b then a :: lcs as bs
    else
      let l := lcs (a :: as) bs
      let r := lcs as (b :: bs)
      if r.length ≤ l.length then l else r
termination_by x y => x.length + y.length
decreasing_by all_goals simp_arith

/-- One aligned row of the two-pane diff. -/
inductive DiffRow where
  | eqRow (l : List Char)
  | delRow (l : List Char)
  | insRow (l : List Char)
deriving DecidableEq, Repr

/-- Align the two line lists along a common subsequence, emitting removals
from the left input and insertions from the right input between anchors. -/
def alignRows : List (List Char) → List (List Char) → List (List Char) → List DiffRow
  | [], as, bs => as.map DiffRow.delRow ++ bs.map DiffRow.insRow
  | c :: cs, as, bs =>
    (as.takeWhile fun x => x ≠ c).map DiffRow.delRow ++
      (bs.takeWhile fun x => x ≠ c).map DiffRow.insRow ++
      DiffRow.eqRow c ::
        alignRows cs ((as.dropWhile fun x => x ≠ c).drop 1) ((bs.dropWhile fun x => x ≠ c).drop 1)

def diffRows (a b : List (List Char)) : List DiffRow := alignRows (lcs a b) a b

def renderRow : DiffRow → List Char
  | .eqRow l => "<tr><td>".toList ++ l ++ "</td><td>".toList ++ l ++ "</td></tr>".toList
  | .delRow l => "<tr><td class=diff_sub>".toList ++ l ++ "</td><td></td></tr>".toList
  | .insRow l => "<tr><td></td><td class=diff_add>".toList ++ l ++ "</td></tr>".toList

def htmlHead : List Char :=
  "<!DOCTYPE html><html><head><title>Diff</title></head><body><table>".toList

def htmlFoot : List Char := "</table></body></html>".toList

/-- Modelled from the spec: `difflib.HtmlDiff().make_file(fromlines, tolines,
fromdesc, todesc, context=True)`. -/
def make_file (fromlines tolines : List (List Char)) (fromdesc todesc : List Char) : List Char :=
  htmlHead ++ "<tr><th>".toList ++ fromdesc ++ "</th><th>".toList ++ todesc ++
    "</th></tr>".toList ++ (diffRows fromlines tolines).flatMap renderRow ++ htmlFoot

/-- `generate_diff` of code_analyzer.py. -/
def generate_diff (original_code improved_code : List Char) : List Char :=
  make_file (pySplitlines original_code) (pySplitlines improved_code)
    "Original Code".toList "Improved Code".toList

/-! ## Suggestion generation: `generate_code_suggestions` (code_suggester.py)

The Groq chat-completion client is the external collaborator: its outcome is
injected as `completion` (on success the raw response text, on failure the
exception's message, i.e. `str(e)`).  The `GROQ_API_KEY` environment value is
injected as `api_key` (`none` when unset; Python `if not api_key` is also
true for the empty string).  Both the `ValueError` raised for a missing key
and any client exception are caught by the single `except Exception` clause,
which returns the original code, an error explanation, and an empty diff. -/

def errPrefix : List Char := "Error generating suggestions: ".toList

def keyErrMsg : List Char := "GROQ_API_KEY environment variable is not set".toList

def generate_code_suggestions (code prompt : List Char) (api_key : Option (List Char))
    (completion : Except (List Char) (List Char)) : List Char × List Char × List Char :=
  match api_key with
  | none => (code, errPrefix ++ keyErrMsg, [])
  | some k =>
    if k = [] then (code, errPrefix ++ keyErrMsg, [])
    else
      match completion with
      | .error e => (code, errPrefix ++ e, [])
      | .ok response_text =>
        let ex := extract_code_and_explanation response_text
        let diff := generate_diff code ex.1
        (ex.1, ex.2, diff)

/-! ## String lemma toolkit -/

theorem strHas_iff {n h : List Char} : strHas n h = true ↔ ∃ p q, h = p ++ n ++ q := by
  induction h with
  | nil =>
    simp only [strHas, strStarts_iff]
    constructor
    · rintro ⟨r, hr⟩
      have : n = [] ∧ r = [] := by simpa using hr.symm
      exact ⟨[], [], by simp [this.1]⟩
    · rintro ⟨p, q, hpq⟩
      have h1 : p = [] ∧ n = [] ∧ q = [] := by simpa using hpq.symm
      exact ⟨[], by simp [h1.2.1]⟩
  | cons c t ih =>
    simp only [strHas, Bool.or_eq_true]
    constructor
    · rintro (hst | hh)
      · obtain ⟨r, hr⟩ := strStarts_iff.mp hst
        exact ⟨[], r, by simpa using hr⟩
      · obtain ⟨p, q, hpq⟩ := ih.mp hh
        exact ⟨c :: p, q, by simp [hpq]⟩
    · rintro ⟨p, q, hpq⟩
      cases p with
      | nil =>
        exact Or.inl (strStarts_iff.mpr ⟨q, by simpa using hpq⟩)
      | cons c' p' =>
        simp only [List.cons_append, List.cons.injEq] at hpq
        exact Or.inr (ih.mpr ⟨p', q, hpq.2⟩)

theorem strHas_mid (p n q : List Char) : strHas n (p ++ n ++ q) = true :=
  strHas_iff.mpr ⟨p, q, rfl⟩

theorem strStarts_self (n t : List Char) : strStarts n (n ++ t) = true :=
  strStarts_iff.mpr ⟨t, rfl⟩

theorem strStarts_length {n h : List Char} (hs : strStarts n h = true) :
    n.length ≤ h.length := by
  obtain ⟨r, hr⟩ := strStarts_iff.mp hs
  simp [hr]

/-- A prefix match that fits inside the front part of an append matches the
front part alone. -/
theorem strStarts_of_append_le {n x y : List Char} (hs : strStarts n (x ++ y) = true)
    (hl : n.length ≤ x.length) : strStarts n x = true := by
  obtain ⟨r, hr⟩ := strStarts_iff.mp hs
  have h1 : (x ++ y).take n.length = n := by rw [hr, List.take_left]
  rw [List.take_append_eq_append_take, Nat.sub_eq_zero_of_le hl] at h1
  simp only [List.take_zero, List.append_nil] at h1
  have h2 := (List.take_append_drop n.length x).symm
  rw [h1] at h2
  exact strStarts_iff.mpr ⟨x.drop n.length, h2⟩

/-- A prefix match overrunning the front part of `x ++ c :: y` contains `c`. -/
theorem strStarts_append_mem {n x : List Char} {c : Char} {y : List Char}
    (hs : strStarts n (x ++ c :: y) = true) (hl : x.length < n.length) : c ∈ n := by
  induction x generalizing n with
  | nil =>
    cases n with
    | nil => simp at hl
    | cons d n' =>
      simp only [List.nil_append, strStarts, Bool.and_eq_true, beq_iff_eq] at hs
      simp [hs.1]
  | cons e x' ih =>
    cases n with
    | nil => simp at hl
    | cons d n' =>
      simp only [List.cons_append, strStarts, Bool.and_eq_true, beq_iff_eq] at hs
      simp only [List.length_cons] at hl
      exact List.mem_cons_of_mem d (ih hs.2 (by omega))

theorem strHas_of_starts {n h : List Char} (hs : strStarts n h = true) :
    strHas n h = true := by
  cases h with
  | nil => simpa [strHas] using hs
  | cons c t => simp [strHas, hs]

/-- Any occurrence in an append is inside the front, inside the back, or
crosses the boundary starting in a short nonempty suffix of the front. -/
theorem strHas_append_cases {n x y : List Char} (h : strHas n (x ++ y) = true) :
    strHas n x = true ∨ strHas n y = true ∨
      ∃ s, s <:+ x ∧ s ≠ [] ∧ s.length < n.length ∧ strStarts n (s ++ y) = true := by
  induction x with
  | nil => exact Or.inr (Or.inl (by simpa using h))
  | cons c t ih =>
    rw [List.cons_append] at h
    simp only [strHas, Bool.or_eq_true] at h
    rcases h with hst | hh
    · by_cases hl : n.length ≤ (c :: t).length
      · exact Or.inl (strHas_of_starts
          (strStarts_of_append_le (by simpa using hst) hl))
      · refine Or.inr (Or.inr ⟨c :: t, List.suffix_refl _, by simp, by omega, ?_⟩)
        simpa using hst
    · rcases ih hh with h1 | h2 | ⟨s, hs1, hs2, hs3, hs4⟩
      · exact Or.inl (by simp [strHas, h1])
      · exact Or.inr (Or.inl h2)
      · exact Or.inr (Or.inr ⟨s, hs1.trans (List.suffix_cons c t), hs2, hs3, hs4⟩)

/-! ## Claim C2: transport errors degrade to (original code, error text, empty diff) -/

/-- Claim C2: when the completion collaborator fails with a transport or
service error, `generate_code_suggestions` returns the original code
unchanged, an explanation containing the error detail, and an empty diff
artifact; no exception escapes (the embedding is a total function). -/
theorem C2_transport_error_degrades (code prompt k msg : List Char) (hk : k ≠ []) :
    generate_code_suggestions code prompt (some k) (.error msg) =
      (code, errPrefix ++ msg, []) ∧
    strHas msg ((generate_code_suggestions code prompt (some k) (.error msg)).2.1) = true := by
  have h : generate_code_suggestions code prompt (some k) (.error msg) =
      (code, errPrefix ++ msg, []) := by
    simp [generate_code_suggestions, hk]
  refine ⟨h, ?_⟩
  rw [h]
  simpa using strHas_mid errPrefix msg []

/-- Witness for C2 at a concrete failing completion. -/
theorem C2_transport_error_degrades_witness :
    generate_code_suggestions "int x;".toList "make it faster".toList
        (some "gsk-abc".toList) (.error "connection refused".toList) =
      ("int x;".toList, errPrefix ++ "connection refused".toList, []) ∧
    strHas "connection refused".toList
      ((generate_code_suggestions "int x;".toList "make it faster".toList
        (some "gsk-abc".toList) (.error "connection refused".toList)).2.1) = true :=
  C2_transport_error_degrades _ _ _ _ (by decide)

/-! ## Claim C3: a missing credential is NOT reported distinctly -/

/-- Counterexample to claim C3: with the credential absent the function
returns exactly the same degraded shape `(original code, error explanation,
empty diff)` that a transport failure produces -- the `ValueError` raised for
the missing key is swallowed by the same blanket `except` clause. -/
theorem C3_counterexample :
    generate_code_suggestions "int x;".toList "optimize".toList none
        (.ok "response".toList) =
      ("int x;".toList, errPrefix ++ keyErrMsg, []) ∧
    generate_code_suggestions "int x;".toList "optimize".toList
        (some "gsk".toList) (.error "network failure".toList) =
      ("int x;".toList, errPrefix ++ "network failure".toList, []) := by
  exact ⟨rfl, by simp [generate_code_suggestions]⟩

/-- Claim C3 amended: a missing (or empty) credential is degraded into the
same `(original code, error explanation, empty diff)` shape as a transport
failure, before any completion is attempted; the two cases differ only in the
explanation text, which for the missing credential contains the fixed
`GROQ_API_KEY` message. -/
theorem C3_amended (code prompt : List Char)
    (completion : Except (List Char) (List Char)) :
    generate_code_suggestions code prompt none completion =
      (code, errPrefix ++ keyErrMsg, []) ∧
    generate_code_suggestions code prompt (some []) completion =
      (code, errPrefix ++ keyErrMsg, []) ∧
    strHas "GROQ_API_KEY".toList (errPrefix ++ keyErrMsg) = true := by
  exact ⟨rfl, by simp [generate_code_suggestions], by decide⟩

/-! ## Claim C4: the sqrt-in-loop window test is list membership, not
substring containment -/

/-- Claim C4 fails on the code: line 2 contains `sqrt` and the preceding line
contains the loop keyword `for`, yet no performance finding is produced,
because `'for' in lines[max(0, i-5):i]` is Python list membership (whole-line
equality).  The second conjunct shows the detector does fire when a preceding
line is exactly the keyword. -/
theorem C4_window_is_membership_eval :
    (analyze_cpp_code "for (x)\nsqrt(y);".toList).performance_issues = [] ∧
    (analyze_cpp_code "for\nsqrt(y);".toList).performance_issues =
      [⟨2, "sqrt(y);".toList, "Expensive sqrt operation in loop".toList,
        "For magnitude comparisons, consider using squared magnitude (x*x + y*y) instead of sqrt(x*x + y*y)".toList⟩] := by
  exact ⟨by decide, by decide⟩

/-! ## Claim C5: the null-dereference suppression window is also list
membership -/

/-- Claim C5 fails on the code: the preceding line `if (p)` contains `if`,
which per the claim suppresses the finding, yet the finding is produced,
because `'if' not in lines[max(0, i-3):i]` is list membership (only a
preceding line exactly equal to `if`, `nullptr` or `NULL` suppresses). -/
theorem C5_suppression_is_membership_eval :
    (analyze_cpp_code "if (p)\np->update();".toList).potential_bugs =
      [⟨2, "p->update();".toList, "Potential null pointer dereference".toList,
        "Add null check before dereferencing pointers".toList⟩] := by
  decide

/-! ## Location lemmas for the scan loops -/

theorem scanAux_mem {p : List Char → Bool} {iss sug : List Char} {f : Finding} :
    ∀ {n : Nat} {ls : List (List Char)}, f ∈ scanAux p iss sug n ls →
      n + 1 ≤ f.line ∧ f.line ≤ n + ls.length := by
  intro n ls
  induction ls generalizing n with
  | nil => intro h; simp [scanAux] at h
  | cons l ls ih =>
    intro h
    simp only [scanAux, List.mem_append] at h
    rcases h with h | h
    · split at h
      · simp only [List.mem_singleton] at h
        subst h
        simp only [List.length_cons]
        omega
      · simp at h
    · have := ih h
      simp only [List.length_cons]
      omega

theorem perfFindings_line {L : List (List Char)} {i : Nat} {l : List Char} {f : Finding}
    (h : f ∈ perfFindings L i l) : f.line = i + 1 := by
  simp only [perfFindings, sqrtFindings, stringOpFindings, List.mem_append] at h
  rcases h with h | h
  · split at h
    · simp only [List.mem_singleton] at h; subst h; rfl
    · simp at h
  · split at h
    · simp only [List.mem_singleton] at h; subst h; rfl
    · simp at h

theorem bugFindings_line {L : List (List Char)} {i : Nat} {l : List Char} {f : Finding}
    (h : f ∈ bugFindings L i l) : f.line = i + 1 := by
  simp only [bugFindings, List.mem_append] at h
  rcases h with h | h
  · simp only [uninitFindings] at h
    split at h
    · simp only [List.mem_filterMap] at h
      obtain ⟨t, _, hsome⟩ := h
      split at hsome
      · cases hsome; rfl
      · cases hsome
    · simp at h
  · simp only [nullDerefFindings] at h
    split at h
    · simp only [List.mem_singleton] at h; subst h; rfl
    · simp at h

theorem scanWin_mem {g : List (List Char) → Nat → List Char → List Finding}
    {lines : List (List Char)}
    (hg : ∀ L i l f, f ∈ g L i l → f.line = i + 1) :
    ∀ {n : Nat} {ls : List (List Char)} {f : Finding}, f ∈ scanWin g lines n ls →
      n + 1 ≤ f.line ∧ f.line ≤ n + ls.length := by
  intro n ls
  induction ls generalizing n with
  | nil => intro f h; simp [scanWin] at h
  | cons l ls ih =>
    intro f h
    simp only [scanWin, List.mem_append] at h
    rcases h with h | h
    · have := hg lines n l f h
      simp only [List.length_cons]
      omega
    · have := ih h
      simp only [List.length_cons]
      omega

/-! ## Ordering lemmas (claim C6) -/

theorem pairwise_of_line_eq {v : Nat} {xs : List Finding} (h : ∀ f ∈ xs, f.line = v) :
    List.Pairwise (fun f g => f.line ≤ g.line) xs := by
  induction xs with
  | nil => simp
  | cons x xs ih =>
    simp only [List.pairwise_cons]
    refine ⟨fun g hg => ?_, ih fun f hf => h f (by simp [hf])⟩
    rw [h x (by simp), h g (by simp [hg])]

theorem scanAux_pairwise (p : List Char → Bool) (iss sug : List Char) :
    ∀ (n : Nat) (ls : List (List Char)),
      List.Pairwise (fun f g => f.line ≤ g.line) (scanAux p iss sug n ls) := by
  intro n ls
  induction ls generalizing n with
  | nil => simp [scanAux]
  | cons l ls ih =>
    simp only [scanAux]
    refine List.pairwise_append.mpr ⟨?_, ih (n + 1), ?_⟩
    · split <;> simp
    · intro f hf g hg
      have h2 := (scanAux_mem hg).1
      have h1 : f.line = n + 1 := by
        revert hf
        split
        · intro hf; simp only [List.mem_singleton] at hf; subst hf; rfl
        · intro hf; simp at hf
      omega

theorem scanWin_pairwise {g : List (List Char) → Nat → List Char → List Finding}
    (lines : List (List Char))
    (hg : ∀ L i l f, f ∈ g L i l → f.line = i + 1) :
    ∀ (n : Nat) (ls : List (List Char)),
      List.Pairwise (fun f f' => f.line ≤ f'.line) (scanWin g lines n ls) := by
  intro n ls
  induction ls generalizing n with
  | nil => simp [scanWin]
  | cons l ls ih =>
    simp only [scanWin]
    refine List.pairwise_append.mpr
      ⟨pairwise_of_line_eq fun f hf => hg lines n l f hf, ih (n + 1), ?_⟩
    intro f hf f' hf'
    have h1 := hg lines n l f hf
    have h2 := (scanWin_mem hg hf').1
    omega

/-- Counterexample to claim C6: an index-based loop on line 1 and a C-style
array on line 2 put the modern_cpp findings in order [2, 1] -- the two
detector loops run one after the other, so the category is not ascending. -/
theorem C6_counterexample :
    ((analyze_cpp_code "for (int q = 0; i < v.size(); q++)\nint arr[10];".toList).modern_cpp.map
        Finding.line) = [2, 1] ∧
    ¬ List.Pairwise (fun f g => f.line ≤ g.line)
      (analyze_cpp_code "for (int q = 0; i < v.size(); q++)\nint arr[10];".toList).modern_cpp := by
  have hm : ((analyze_cpp_code
      "for (int q = 0; i < v.size(); q++)\nint arr[10];".toList).modern_cpp.map
        Finding.line) = [2, 1] := by decide
  refine ⟨hm, fun hp => ?_⟩
  have h2 : List.Pairwise (fun a b => a ≤ b)
      ((analyze_cpp_code
        "for (int q = 0; i < v.size(); q++)\nint arr[10];".toList).modern_cpp.map
          Finding.line) := List.pairwise_map.mpr hp
  rw [hm] at h2
  exact absurd h2 (by decide)

/-- Claim C6 amended: within each of the five categories fed by a single
scan loop the findings are in ascending line order, and modern_cpp is the
concatenation of the ascending array-declaration findings with the ascending
index-loop findings (the two loops append to it one after the other, so the
category as a whole need not be ascending). -/
theorem C6_amended (code : List Char) :
    List.Pairwise (fun f g => f.line ≤ g.line)
      (analyze_cpp_code code).performance_issues ∧
    List.Pairwise (fun f g => f.line ≤ g.line)
      (analyze_cpp_code code).memory_management ∧
    List.Pairwise (fun f g => f.line ≤ g.line)
      (analyze_cpp_code code).code_style ∧
    List.Pairwise (fun f g => f.line ≤ g.line)
      (analyze_cpp_code code).game_specific ∧
    List.Pairwise (fun f g => f.line ≤ g.line)
      (analyze_cpp_code code).potential_bugs ∧
    (analyze_cpp_code code).modern_cpp =
      arrayFindingsOf (splitNl code) ++ idxLoopFindingsOf (splitNl code) ∧
    List.Pairwise (fun f g => f.line ≤ g.line) (arrayFindingsOf (splitNl code)) ∧
    List.Pairwise (fun f g => f.line ≤ g.line) (idxLoopFindingsOf (splitNl code)) := by
  refine ⟨?_, ?_, ?_, ?_, ?_, rfl, ?_, ?_⟩
  · exact scanWin_pairwise (splitNl code) (fun L i l f h => perfFindings_line h) 0 _
  · exact scanAux_pairwise _ _ _ 0 _
  · exact scanAux_pairwise _ _ _ 0 _
  · exact scanAux_pairwise _ _ _ 0 _
  · exact scanWin_pairwise (splitNl code) (fun L i l f h => bugFindings_line h) 0 _
  · exact scanAux_pairwise _ _ _ 0 _
  · exact scanAux_pairwise _ _ _ 0 _

/-! ## Concatenation behaviour (claim C7) -/

/-- Shift a finding's line number by the length of a preceding snippet. -/
def shiftF (k : Nat) (f : Finding) : Finding := { f with line := f.line + k }

/-- Counterexample to claim C7: snippet A (the single line `for`) and snippet
B (`sqrt(x);`) each analyze to no findings at all, but their concatenation
produces a performance finding -- the sqrt detector's look-back window crosses
the snippet boundary. -/
theorem C7_counterexample :
    (analyze_cpp_code ("for".toList ++ '\n' :: "sqrt(x);".toList)).performance_issues ≠
      (analyze_cpp_code "for".toList).performance_issues ++
        ((analyze_cpp_code "sqrt(x);".toList).performance_issues.map
          (shiftF (splitNl "for".toList).length)) := by
  decide

theorem splitNl_ne_nil (s : List Char) : splitNl s ≠ [] := by
  cases s with
  | nil => simp [splitNl]
  | cons c cs =>
    simp only [splitNl]
    split
    · simp
    · cases h : splitNl cs <;> simp

theorem splitNl_append (a b : List Char) :
    splitNl (a ++ '\n' :: b) = splitNl a ++ splitNl b := by
  induction a with
  | nil => simp [splitNl]
  | cons c a' ih =>
    by_cases hc : c = '\n'
    · subst hc
      simp [splitNl, ih]
    · obtain ⟨l, ls, hls⟩ : ∃ l ls, splitNl a' = l :: ls := by
        cases h : splitNl a' with
        | nil => exact absurd h (splitNl_ne_nil a')
        | cons l ls => exact ⟨l, ls, rfl⟩
      simp only [List.cons_append, splitNl, if_neg hc, List.append_eq]
      rw [ih, hls]
      simp

theorem scanAux_append (p : List Char → Bool) (iss sug : List Char) :
    ∀ (n : Nat) (xs ys : List (List Char)),
      scanAux p iss sug n (xs ++ ys) =
        scanAux p iss sug n xs ++ scanAux p iss sug (n + xs.length) ys := by
  intro n xs
  induction xs generalizing n with
  | nil => simp [scanAux]
  | cons l xs ih =>
    intro ys
    simp only [List.cons_append, scanAux, List.length_cons, List.append_eq]
    rw [ih (n + 1) ys]
    have harr : n + 1 + xs.length = n + (xs.length + 1) := by omega
    rw [harr, List.append_assoc]

theorem scanAux_shift (p : List Char → Bool) (iss sug : List Char) (k : Nat) :
    ∀ (n : Nat) (ls : List (List Char)),
      scanAux p iss sug (n + k) ls = (scanAux p iss sug n ls).map (shiftF k) := by
  intro n ls
  induction ls generalizing n with
  | nil => simp [scanAux]
  | cons l ls ih =>
    have harr : n + k + 1 = n + 1 + k := by omega
    simp only [scanAux, List.map_append, harr, ih (n + 1)]
    congr 1
    split <;> simp [shiftF]

theorem scanAux_concat (p : List Char → Bool) (iss sug : List Char)
    (xs ys : List (List Char)) :
    scanAux p iss sug 0 (xs ++ ys) =
      scanAux p iss sug 0 xs ++ (scanAux p iss sug 0 ys).map (shiftF xs.length) := by
  rw [scanAux_append]
  congr 1
  have h0 : (0 : Nat) + xs.length = 0 + xs.length := rfl
  exact scanAux_shift p iss sug xs.length 0 ys

/-- Claim C7 amended: for the four categories whose detectors inspect only
the current line (memory_management, code_style, game_specific, modern_cpp),
analyzing the concatenation is the union of the separate analyses with the
second snippet's line numbers offset by the first's line count; modern_cpp is
that union up to permutation (its two rules interleave differently).  The
window-based categories (performance_issues, potential_bugs) are excluded:
their look-back windows can cross the boundary, see the counterexample. -/
theorem C7_amended (A B : List Char) :
    (analyze_cpp_code (A ++ '\n' :: B)).memory_management =
      (analyze_cpp_code A).memory_management ++
        ((analyze_cpp_code B).memory_management.map (shiftF (splitNl A).length)) ∧
    (analyze_cpp_code (A ++ '\n' :: B)).code_style =
      (analyze_cpp_code A).code_style ++
        ((analyze_cpp_code B).code_style.map (shiftF (splitNl A).length)) ∧
    (analyze_cpp_code (A ++ '\n' :: B)).game_specific =
      (analyze_cpp_code A).game_specific ++
        ((analyze_cpp_code B).game_specific.map (shiftF (splitNl A).length)) ∧
    List.Perm (analyze_cpp_code (A ++ '\n' :: B)).modern_cpp
      ((analyze_cpp_code A).modern_cpp ++
        ((analyze_cpp_code B).modern_cpp.map (shiftF (splitNl A).length))) := by
  have hsp := splitNl_append A B
  refine ⟨?_, ?_, ?_, ?_⟩
  · show memFindingsOf (splitNl (A ++ '\n' :: B)) =
      memFindingsOf (splitNl A) ++ (memFindingsOf (splitNl B)).map (shiftF (splitNl A).length)
    rw [hsp]
    exact scanAux_concat _ _ _ _ _
  · show styleFindingsOf (splitNl (A ++ '\n' :: B)) =
      styleFindingsOf (splitNl A) ++
        (styleFindingsOf (splitNl B)).map (shiftF (splitNl A).length)
    rw [hsp]
    exact scanAux_concat _ _ _ _ _
  · show gameFindingsOf (splitNl (A ++ '\n' :: B)) =
      gameFindingsOf (splitNl A) ++
        (gameFindingsOf (splitNl B)).map (shiftF (splitNl A).length)
    rw [hsp]
    exact scanAux_concat _ _ _ _ _
  · show List.Perm
      (arrayFindingsOf (splitNl (A ++ '\n' :: B)) ++ idxLoopFindingsOf (splitNl (A ++ '\n' :: B)))
      ((arrayFindingsOf (splitNl A) ++ idxLoopFindingsOf (splitNl A)) ++
        ((arrayFindingsOf (splitNl B) ++ idxLoopFindingsOf (splitNl B)).map
          (shiftF (splitNl A).length)))
    rw [hsp]
    unfold arrayFindingsOf idxLoopFindingsOf
    rw [scanAux_concat, scanAux_concat, List.map_append]
    simp only [List.append_assoc]
    refine List.Perm.append_left _ ?_
    rw [← List.append_assoc, ← List.append_assoc]
    exact List.Perm.append_right _ List.perm_append_comm

/-! ## Claim C10: successful completion without a fenced block -/

theorem lcs_nil_right : ∀ a : List (List Char), lcs a [] = [] := by
  intro a
  cases a <;> simp [lcs]

theorem make_file_ne_nil (a b : List (List Char)) (c d : List Char) :
    make_file a b c d ≠ [] := by
  intro h
  have hlen := congrArg List.length h
  simp only [make_file, List.length_append, List.length_nil] at hlen
  have hh : 0 < htmlHead.length := by decide
  omega

/-- Claim C10: when the completion succeeds but the response has no
cpp-fenced block, the result is empty improved code, the response text as
explanation, and the full rendered diff of the original against the empty
string -- every original line a removal row -- which is nonempty and hence
distinct from the empty diff artifact that signals a failed call. -/
theorem C10_no_cpp_block (code prompt k resp : List Char) (hk : k ≠ [])
    (hnb : cppMatch resp = none) :
    generate_code_suggestions code prompt (some k) (.ok resp) =
      ([], resp, generate_diff code []) ∧
    generate_diff code [] ≠ [] ∧
    diffRows (pySplitlines code) (pySplitlines []) =
      (pySplitlines code).map DiffRow.delRow := by
  have hex : extract_code_and_explanation resp = ([], resp) := by
    simp [extract_code_and_explanation, hnb]
  refine ⟨?_, ?_, ?_⟩
  · simp [generate_code_suggestions, hk, hex]
  · show make_file (pySplitlines code) (pySplitlines []) _ _ ≠ []
    exact make_file_ne_nil _ _ _ _
  · have hnil : pySplitlines ([] : List Char) = [] := by simp [pySplitlines]
    rw [hnil]
    simp [diffRows, lcs_nil_right, alignRows]

/-- Witness for C10 at a concrete blockless successful response. -/
theorem C10_no_cpp_block_witness :
    generate_code_suggestions "a\nb".toList "speed this up".toList (some "gsk".toList)
        (.ok "no fenced block here".toList) =
      ([], "no fenced block here".toList, generate_diff "a\nb".toList []) ∧
    generate_diff "a\nb".toList [] ≠ [] ∧
    diffRows (pySplitlines "a\nb".toList) (pySplitlines []) =
      (pySplitlines "a\nb".toList).map DiffRow.delRow :=
  C10_no_cpp_block _ _ _ _ (by decide) (by decide)

/-! ## Claim C1: fixed category keys and line-number bounds -/

/-- Claim C1: for every input, the analysis has exactly the six fixed
category keys, in the dictionary's insertion order, each present even when
empty; and every finding's line number lies within [1, number of lines of
the input split on newline]. -/
theorem C1_keys_and_line_bounds (code : List Char) :
    (itemsOf (analyze_cpp_code code)).map Prod.fst =
      ["performance_issues".toList, "memory_management".toList, "code_style".toList,
        "modern_cpp".toList, "game_specific".toList, "potential_bugs".toList] ∧
    ∀ kv ∈ itemsOf (analyze_cpp_code code), ∀ f ∈ kv.2,
      1 ≤ f.line ∧ f.line ≤ (splitNl code).length := by
  refine ⟨rfl, ?_⟩
  intro kv hkv f hf
  simp only [itemsOf, List.mem_cons, List.not_mem_nil, or_false] at hkv
  rcases hkv with rfl | rfl | rfl | rfl | rfl | rfl
  · have h := scanWin_mem (fun L i l f h => perfFindings_line h) (f := f) hf
    omega
  · have h := scanAux_mem (f := f) hf
    omega
  · have h := scanAux_mem (f := f) hf
    omega
  · have hmeq : (analyze_cpp_code code).modern_cpp =
        arrayFindingsOf (splitNl code) ++ idxLoopFindingsOf (splitNl code) := rfl
    rw [hmeq] at hf
    simp only [List.mem_append] at hf
    rcases hf with hf | hf
    · have h := scanAux_mem (f := f) hf
      omega
    · have h := scanAux_mem (f := f) hf
      omega
  · have h := scanAux_mem (f := f) hf
    omega
  · have h := scanWin_mem (fun L i l f h => bugFindings_line h) (f := f) hf
    omega

/-- Witness for C1: the concrete bound at the uninitialized-variable finding
of the one-line input `int x;`. -/
theorem C1_keys_and_line_bounds_witness :
    1 ≤ (Finding.mk 1 "int x;".toList "Uninitialized primitive variable".toList
        "Initialize variables at declaration to avoid undefined behavior".toList).line ∧
    (Finding.mk 1 "int x;".toList "Uninitialized primitive variable".toList
        "Initialize variables at declaration to avoid undefined behavior".toList).line ≤
      (splitNl "int x;".toList).length :=
  (C1_keys_and_line_bounds "int x;".toList).2
    ("potential_bugs".toList, (analyze_cpp_code "int x;".toList).potential_bugs)
    (by decide) _ (by decide)

/-! ## Claim C9: shape of the formatted analysis report -/

theorem strStarts_append_of (n p : List Char) (hs : strStarts n p = true) (x : List Char) :
    strStarts n (p ++ x) = true := by
  obtain ⟨r, hr⟩ := strStarts_iff.mp hs
  exact strStarts_iff.mpr ⟨r ++ x, by simp [hr]⟩

theorem strStarts_append_false {n p : List Char} (x : List Char) (hl : n.length ≤ p.length)
    (h : strStarts n p = false) : strStarts n (p ++ x) = false := by
  cases hs : strStarts n (p ++ x) with
  | false => rfl
  | true => exact absurd (strStarts_of_append_le hs hl) (by simp [h])

/-- The three report lines of one finding. -/
def entryLines (f : Finding) : List (List Char) := [dashLineOf f, codeLineOf f, suggLineOf f]

theorem fmtEntryLoop_eq (issues : List Finding) (result : List (List Char)) :
    fmtEntryLoop issues result = result ++ issues.flatMap entryLines := by
  induction issues generalizing result with
  | nil => simp [fmtEntryLoop]
  | cons i is ih => simp [fmtEntryLoop, ih, entryLines]

theorem fmtCatLoop_eq (items : List (List Char × List Finding)) (result : List (List Char)) :
    fmtCatLoop items result = result ++ items.flatMap (fun kv =>
      if kv.2.isEmpty then []
      else catHeading kv.1 :: (kv.2.flatMap entryLines ++ [[]])) := by
  induction items generalizing result with
  | nil => simp [fmtCatLoop]
  | cons kv rest ih =>
    obtain ⟨category, issues⟩ := kv
    simp only [fmtCatLoop]
    split
    · rename_i he
      have hemp : issues = [] := by simpa using he
      simp [ih, hemp]
    · rename_i he
      have hemp : ¬ issues = [] := by simpa using he
      rw [ih, fmtEntryLoop_eq]
      simp [hemp, List.append_assoc]

theorem dashLine_starts (f : Finding) : strStarts "- ".toList (dashLineOf f) = true := by
  simp only [dashLineOf, List.append_assoc]
  exact strStarts_append_of _ _ (by decide) _

theorem codeLine_not_dash (f : Finding) : strStarts "- ".toList (codeLineOf f) = false :=
  strStarts_append_false _ (by decide) (by decide)

theorem suggLine_not_dash (f : Finding) : strStarts "- ".toList (suggLineOf f) = false :=
  strStarts_append_false _ (by decide) (by decide)

theorem countP_entryLines (fs : List Finding) :
    (fs.flatMap entryLines).countP (fun l => strStarts "- ".toList l) = fs.length := by
  induction fs with
  | nil => simp
  | cons f fs ih =>
    rw [List.flatMap_cons, List.countP_append, ih]
    simp only [entryLines, List.countP_cons, List.countP_nil]
    rw [dashLine_starts f, codeLine_not_dash f, suggLine_not_dash f]
    simp
    omega

/-- Counterexample to claim C9: on the one-finding analysis of
`int* p = q;` the report has exactly one `- `-prefixed line, and that line
contains neither the code snippet nor the suggestion (they sit on the two
following indented lines), contradicting "that single line containing the
finding's line number, issue label, code snippet, and suggestion". -/
theorem C9_counterexample :
    ((fmtCatLoop (itemsOf (analyze_cpp_code "int* p = q;".toList)) []).filter
        (fun l => strStarts "- ".toList l)) = ["- Line 1: Raw pointer usage".toList] ∧
    strHas rawPtrSuggestion "- Line 1: Raw pointer usage".toList = false ∧
    strHas "int* p = q;".toList "- Line 1: Raw pointer usage".toList = false := by
  exact ⟨by decide, by decide, by decide⟩

/-- Claim C9 amended: for each category with at least one finding the report
contains the `##` heading (key with underscores as spaces, title-cased)
followed by, per finding, exactly one `- `-prefixed line carrying the line
number and issue label, then two indented non-bulleted lines carrying the
code snippet and the suggestion, and a blank line closing the category
block. -/
theorem C9_amended (a : Analysis) (k : List Char) (fs : List Finding)
    (hmem : (k, fs) ∈ itemsOf a) (hne : fs ≠ []) :
    format_analysis_for_prompt a = joinNl (fmtCatLoop (itemsOf a) []) ∧
    (∃ pre post, fmtCatLoop (itemsOf a) [] =
      pre ++ (catHeading k :: (fs.flatMap entryLines ++ [[]])) ++ post) ∧
    (fs.flatMap entryLines).countP (fun l => strStarts "- ".toList l) = fs.length ∧
    ∀ f ∈ fs, entryLines f = [dashLineOf f, codeLineOf f, suggLineOf f] ∧
      strStarts "- ".toList (dashLineOf f) = true ∧
      strHas (natChars f.line) (dashLineOf f) = true ∧
      strHas f.issue (dashLineOf f) = true ∧
      strStarts "- ".toList (codeLineOf f) = false ∧
      strHas f.code (codeLineOf f) = true ∧
      strStarts "- ".toList (suggLineOf f) = false ∧
      strHas f.suggestion (suggLineOf f) = true := by
  refine ⟨rfl, ?_, countP_entryLines fs, ?_⟩
  · obtain ⟨s, t, hst⟩ := List.append_of_mem hmem
    have hemp : fs.isEmpty = false := by
      cases fs with
      | nil => exact absurd rfl hne
      | cons f fs => rfl
    refine ⟨s.flatMap (fun kv => if kv.2.isEmpty then []
      else catHeading kv.1 :: (kv.2.flatMap entryLines ++ [[]])),
      t.flatMap (fun kv => if kv.2.isEmpty then []
      else catHeading kv.1 :: (kv.2.flatMap entryLines ++ [[]])), ?_⟩
    rw [fmtCatLoop_eq, hst, List.flatMap_append, List.flatMap_cons]
    simp [hemp, List.append_assoc]
  · intro f _
    refine ⟨rfl, dashLine_starts f, ?_, ?_, codeLine_not_dash f, ?_,
      suggLine_not_dash f, ?_⟩
    · exact strHas_iff.mpr ⟨"- Line ".toList, ": ".toList ++ f.issue,
        by simp [dashLineOf, List.append_assoc]⟩
    · exact strHas_iff.mpr ⟨"- Line ".toList ++ natChars f.line ++ ": ".toList, [],
        by simp [dashLineOf, List.append_assoc]⟩
    · exact strHas_iff.mpr ⟨"  Code: ".toList, [], by simp [codeLineOf]⟩
    · exact strHas_iff.mpr ⟨"  Suggestion: ".toList, [], by simp [suggLineOf]⟩

/-- Witness for C9 at the concrete analysis of `int* p = q;`. -/
theorem C9_amended_witness :
    format_analysis_for_prompt (analyze_cpp_code "int* p = q;".toList) =
      joinNl (fmtCatLoop (itemsOf (analyze_cpp_code "int* p = q;".toList)) []) ∧
    (∃ pre post, fmtCatLoop (itemsOf (analyze_cpp_code "int* p = q;".toList)) [] =
      pre ++ (catHeading "memory_management".toList ::
        ([Finding.mk 1 "int* p = q;".toList "Raw pointer usage".toList
          rawPtrSuggestion].flatMap entryLines ++ [[]])) ++ post) ∧
    ([Finding.mk 1 "int* p = q;".toList "Raw pointer usage".toList
        rawPtrSuggestion].flatMap entryLines).countP
      (fun l => strStarts "- ".toList l) = 1 ∧
    ∀ f ∈ [Finding.mk 1 "int* p = q;".toList "Raw pointer usage".toList rawPtrSuggestion],
      entryLines f = [dashLineOf f, codeLineOf f, suggLineOf f] ∧
      strStarts "- ".toList (dashLineOf f) = true ∧
      strHas (natChars f.line) (dashLineOf f) = true ∧
      strHas f.issue (dashLineOf f) = true ∧
      strStarts "- ".toList (codeLineOf f) = false ∧
      strHas f.code (codeLineOf f) = true ∧
      strStarts "- ".toList (suggLineOf f) = false ∧
      strHas f.suggestion (suggLineOf f) = true :=
  C9_amended (analyze_cpp_code "int* p = q;".toList) "memory_management".toList
    [Finding.mk 1 "int* p = q;".toList "Raw pointer usage".toList rawPtrSuggestion]
    (by decide) (by decide)

/-! ## Claim C8: extraction round-trip on a constructed response -/

theorem orb_false_left {a b : Bool} (h : (a || b) = false) : a = false := by
  cases a
  · rfl
  · simp at h

theorem orb_false_right {a b : Bool} (h : (a || b) = false) : b = false := by
  cases b
  · rfl
  · simp at h

theorem strStarts_append_elim {a b h : List Char} (hs : strStarts (a ++ b) h = true) :
    strStarts a h = true := by
  obtain ⟨r, hr⟩ := strStarts_iff.mp hs
  exact strStarts_iff.mpr ⟨b ++ r, by simp [hr]⟩

theorem strHas_of_starts_of_suffix {n s h : List Char} (hsuf : s <:+ h)
    (hs : strStarts n s = true) : strHas n h = true := by
  obtain ⟨t, ht⟩ := hsuf
  obtain ⟨r, hr⟩ := strStarts_iff.mp hs
  exact strHas_iff.mpr ⟨t, r, by rw [← ht, hr]; simp⟩

theorem strStarts_head_mem {n : List Char} {c : Char} {t : List Char}
    (h : strStarts n (c :: t) = true) (hn : n ≠ []) : c ∈ n := by
  cases n with
  | nil => exact absurd rfl hn
  | cons d n' =>
    simp only [strStarts, Bool.and_eq_true, beq_iff_eq] at h
    simp [h.1]

theorem suffix_append_one {s x : List Char} {c : Char} (hsuf : s <:+ x ++ [c])
    (hne : s ≠ []) : ∃ s', s = s' ++ [c] ∧ s' <:+ x := by
  obtain ⟨t, ht⟩ := hsuf
  rcases List.eq_nil_or_concat s with rfl | ⟨s', a, hs⟩
  · exact absurd rfl hne
  · subst hs
    simp only [List.concat_eq_append] at ht ⊢
    rw [← List.append_assoc] at ht
    have hrev := congrArg List.reverse ht
    simp only [List.reverse_append, List.reverse_cons, List.reverse_nil,
      List.nil_append, List.singleton_append, List.cons_append] at hrev
    injection hrev with h1 h2
    subst h1
    refine ⟨s', rfl, t, ?_⟩
    have h3 := congrArg List.reverse h2
    simpa using h3

theorem strHas_append_one {n x : List Char} {c : Char}
    (h : strHas n (x ++ [c]) = true) : strHas n x = true ∨ c ∈ n := by
  rcases strHas_append_cases h with h1 | h2 | ⟨s, hs1, hs2, hs3, hs4⟩
  · exact Or.inl h1
  · cases n with
    | nil => exact Or.inl (strHas_iff.mpr ⟨[], x, by simp⟩)
    | cons d n' =>
      obtain ⟨p, q, hpq⟩ := strHas_iff.mp h2
      have hlen := congrArg List.length hpq
      simp only [List.length_append, List.length_cons, List.length_nil] at hlen
      have hp : p = [] := List.eq_nil_of_length_eq_zero (by omega)
      have hq : q = [] := List.eq_nil_of_length_eq_zero (by omega)
      subst hp hq
      simp only [List.nil_append, List.append_nil] at hpq
      injection hpq with h1 _
      simp [h1]
  · have hle := strStarts_length hs4
    simp only [List.length_append, List.length_singleton] at hle
    obtain ⟨r, hr⟩ := strStarts_iff.mp hs4
    have hrlen := congrArg List.length hr
    simp only [List.length_append, List.length_singleton] at hrlen
    have hr0 : r = [] := List.eq_nil_of_length_eq_zero (by omega)
    subst hr0
    simp only [List.append_nil] at hr
    exact Or.inr (by rw [← hr]; simp)

theorem splitFirst_skip {n y : List Char} :
    ∀ {x : List Char}, (∀ s, s <:+ x → s ≠ [] → strStarts n (s ++ y) = false) →
      splitFirst n (x ++ y) = (splitFirst n y).map (fun q => (x ++ q.1, q.2)) := by
  intro x
  induction x with
  | nil =>
    intro _
    cases h : splitFirst n y with
    | none => simp [h]
    | some q => obtain ⟨b, a⟩ := q; simp [h]
  | cons c x' ih =>
    intro hx
    have hcx : strStarts n (c :: (x' ++ y)) = false := by
      simpa using hx (c :: x') (List.suffix_refl _) (by simp)
    simp only [List.cons_append, splitFirst, List.append_eq]
    rw [if_neg (by simp [hcx])]
    rw [ih fun s hs hne => hx s (hs.trans (List.suffix_cons c x')) hne]
    cases h : splitFirst n y with
    | none => simp [h]
    | some q => obtain ⟨b, a⟩ := q; simp [h]

theorem splitFirst_self {n z : List Char} (hne : n ≠ []) :
    splitFirst n (n ++ z) = some ([], z) := by
  cases hn : n with
  | nil => exact absurd hn hne
  | cons c n' =>
    simp only [List.cons_append, splitFirst, List.append_eq]
    rw [if_pos ?hpos]
    case hpos =>
      have := strStarts_self (c :: n') z
      simpa using this
    have hdrop : (c :: (n' ++ z)).drop (c :: n').length = z := by
      simp only [List.length_cons, List.drop_succ_cons]
      exact List.drop_left n' z
    rw [hdrop]

theorem cppMatch_skip {y : List Char} :
    ∀ {x : List Char}, (∀ s, s <:+ x → s ≠ [] → strStarts cppOpener (s ++ y) = false) →
      cppMatch (x ++ y) = (cppMatch y).map (fun q => (x ++ q.1, q.2)) := by
  intro x
  induction x with
  | nil =>
    intro _
    cases h : cppMatch y with
    | none => simp [h]
    | some q => obtain ⟨b, cap, a⟩ := q; simp [h]
  | cons c x' ih =>
    intro hx
    have hcx : strStarts cppOpener (c :: (x' ++ y)) = false := by
      simpa using hx (c :: x') (List.suffix_refl _) (by simp)
    simp only [List.cons_append, cppMatch, List.append_eq]
    rw [if_neg (by simp [hcx])]
    rw [ih fun s hs hne => hx s (hs.trans (List.suffix_cons c x')) hne]
    cases h : cppMatch y with
    | none => simp [h]
    | some q => obtain ⟨b, cap, a⟩ := q; simp [h]

theorem cppMatch_self {z cap a : List Char} (hsp : splitFirst tickStr z = some (cap, a)) :
    cppMatch (cppOpener ++ z) = some ([], cap, a) := by
  have h7 : cppOpener = '`' :: "``cpp\n".toList := by decide
  rw [h7, List.cons_append]
  simp only [cppMatch, List.append_eq]
  rw [if_pos ?hpos]
  case hpos =>
    rw [← List.cons_append, ← h7]
    exact strStarts_self cppOpener z
  have hdrop : ('`' :: ("``cpp\n".toList ++ z)).drop cppOpener.length = z := by
    rw [← List.cons_append, ← h7]
    exact List.drop_left cppOpener z
  rw [hdrop, hsp]

theorem cppMatch_none_of_no_ticks {z : List Char} (h : strHas tickStr z = false) :
    cppMatch z = none := by
  induction z with
  | nil => rfl
  | cons c t ih =>
    simp only [strHas] at h
    have h1 := orb_false_left h
    have h2 := orb_false_right h
    simp only [cppMatch]
    rw [if_neg ?hneg]
    case hneg =>
      intro hop
      have hdec : cppOpener = tickStr ++ "cpp\n".toList := by decide
      have : strStarts tickStr (c :: t) = true :=
        strStarts_append_elim (by rw [← hdec]; exact hop)
      simp [this] at h1
    rw [ih h2]

/-! Crossing-occurrence dischargers for the constructed response text. -/

theorem no_opener_start {pre z : List Char} (hpt : strHas tickStr pre = false) :
    ∀ s, s <:+ pre ++ [' '] → s ≠ [] →
      strStarts cppOpener (s ++ (cppOpener ++ z)) = false := by
  intro s hsuf hne
  obtain ⟨s', rfl, hs'⟩ := suffix_append_one hsuf hne
  by_contra hcon
  have hst : strStarts cppOpener (s' ++ (' ' :: (cppOpener ++ z))) = true := by
    have : strStarts cppOpener ((s' ++ [' ']) ++ (cppOpener ++ z)) = true := by
      simpa using hcon
    simpa [List.append_assoc] using this
  by_cases hl : cppOpener.length ≤ s'.length
  · have h1 : strStarts cppOpener s' = true := strStarts_of_append_le hst hl
    have hdec : cppOpener = tickStr ++ "cpp\n".toList := by decide
    have h2 : strStarts tickStr s' = true :=
      strStarts_append_elim (by rw [← hdec]; exact h1)
    have h3 : strHas tickStr pre = true := strHas_of_starts_of_suffix hs' h2
    simp [h3] at hpt
  · have hmem : ' ' ∈ cppOpener := strStarts_append_mem hst (by omega)
    exact absurd hmem (by decide)

theorem no_tick_start_code {codeB rest : List Char} (hct : strHas tickStr codeB = false) :
    ∀ s, s <:+ codeB ++ ['\n'] → s ≠ [] → strStarts tickStr (s ++ rest) = false := by
  intro s hsuf hne
  obtain ⟨s', rfl, hs'⟩ := suffix_append_one hsuf hne
  by_contra hcon
  have hst : strStarts tickStr (s' ++ ('\n' :: rest)) = true := by
    have : strStarts tickStr ((s' ++ ['\n']) ++ rest) = true := by simpa using hcon
    simpa [List.append_assoc] using this
  by_cases hl : tickStr.length ≤ s'.length
  · have h1 := strStarts_of_append_le hst hl
    have h3 : strHas tickStr codeB = true := strHas_of_starts_of_suffix hs' h1
    simp [h3] at hct
  · have hmem : '\n' ∈ tickStr := strStarts_append_mem hst (by omega)
    exact absurd hmem (by decide)

theorem no_ticks_tail {suf : List Char} (hst : strHas tickStr suf = false) :
    strHas tickStr (' ' :: suf) = false := by
  have h1 : strStarts tickStr (' ' :: suf) = false := by
    by_contra hc
    have hc' : strStarts tickStr (' ' :: suf) = true := by simpa using hc
    exact absurd (strStarts_head_mem hc' (by decide)) (by decide)
  simp [strHas, h1, hst]

theorem no_ticks_join {pre suf : List Char} (hpt : strHas tickStr pre = false)
    (hst : strHas tickStr suf = false) :
    strHas tickStr (pre ++ ' ' :: ' ' :: suf) = false := by
  by_contra hcon
  have h : strHas tickStr (pre ++ ' ' :: ' ' :: suf) = true := by simpa using hcon
  rcases strHas_append_cases h with h1 | h2 | ⟨s, _, hs2, hs3, hs4⟩
  · simp [h1] at hpt
  · have hsw : (' ' ∈ tickStr) → False := by decide
    simp only [strHas, Bool.or_eq_true] at h2
    rcases h2 with h2 | h2 | h2
    · exact hsw (strStarts_head_mem h2 (by decide))
    · exact hsw (strStarts_head_mem h2 (by decide))
    · simp [h2] at hst
  · have hmem : ' ' ∈ tickStr := strStarts_append_mem hs4 hs3
    exact absurd hmem (by decide)

theorem dropWhile_self_head {l : List Char} (hne : l ≠ [])
    (hdw : l.dropWhile isSpaceChar = l) :
    ∃ c t, l = c :: t ∧ isSpaceChar c = false := by
  cases l with
  | nil => exact absurd rfl hne
  | cons c t =>
    refine ⟨c, t, rfl, ?_⟩
    by_contra hc
    have hc' : isSpaceChar c = true := by simpa using hc
    rw [List.dropWhile_cons, if_pos hc'] at hdw
    have h1 := congrArg List.length hdw
    have h2 : (t.dropWhile isSpaceChar).length ≤ t.length :=
      (List.dropWhile_suffix _).length_le
    simp only [List.length_cons] at h1
    omega

theorem pyStrip_append_nl (x : List Char) : pyStrip (x ++ ['\n']) = pyStrip x := by
  unfold pyStrip
  rw [List.dropWhile_append]
  cases hdx : x.dropWhile isSpaceChar with
  | nil =>
    have hnl : (['\n'] : List Char).dropWhile isSpaceChar = [] := by decide
    simp [hnl]
  | cons c t =>
    simp only [List.isEmpty_cons, Bool.false_eq_true, if_false]
    rw [List.reverse_append]
    have hrev : (['\n'] : List Char).reverse = ['\n'] := rfl
    rw [hrev]
    have hcons : ('\n' :: (c :: t).reverse : List Char).dropWhile isSpaceChar =
        ((c :: t).reverse : List Char).dropWhile isSpaceChar := by
      rw [List.dropWhile_cons, if_pos (by decide)]
    simp only [List.singleton_append, hcons]

theorem pyStrip_clean_append (pre suf : List Char)
    (hpre1 : pre ≠ []) (hpre2 : pre.dropWhile isSpaceChar = pre)
    (hsuf1 : suf ≠ []) (hsuf2 : suf.reverse.dropWhile isSpaceChar = suf.reverse) :
    pyStrip (pre ++ ' ' :: ' ' :: suf) = pre ++ ' ' :: ' ' :: suf := by
  obtain ⟨c, t, hct, hc⟩ := dropWhile_self_head hpre1 hpre2
  obtain ⟨d, u, hdu, hd⟩ := dropWhile_self_head (by simpa using hsuf1) hsuf2
  unfold pyStrip
  have h1 : (pre ++ ' ' :: ' ' :: suf).dropWhile isSpaceChar = pre ++ ' ' :: ' ' :: suf := by
    rw [hct, List.cons_append, List.dropWhile_cons, if_neg (by simp [hc])]
  rw [h1]
  have h2 : (pre ++ ' ' :: ' ' :: suf).reverse = d :: (u ++ ' ' :: ' ' :: pre.reverse) := by
    rw [List.reverse_append]
    have h3 : (' ' :: ' ' :: suf : List Char).reverse = suf.reverse ++ [' ', ' '] := by
      simp
    rw [h3, hdu]
    simp
  rw [h2, List.dropWhile_cons, if_neg (by simp [hd])]
  have h4 : d :: (u ++ ' ' :: ' ' :: pre.reverse) = suf.reverse ++ (' ' :: ' ' :: pre.reverse) := by
    rw [hdu]
    rfl
  rw [h4]
  simp

/-- Counterexample to claim C8: for the constructed response with
prefix `" p"`, CODE `"c"`, suffix `"s"` (none containing fenced blocks or
each other), the extracted explanation is `"p  s"` -- stripping removed the
prefix's leading space, so the explanation does not contain the prefix. -/
theorem C8_counterexample :
    (extract_code_and_explanation " p ```cpp\nc\n``` s".toList).1 = "c".toList ∧
    strHas " p".toList (extract_code_and_explanation " p ```cpp\nc\n``` s".toList).2 =
      false := by
  have hm : cppMatch " p ```cpp\nc\n``` s".toList =
      some (" p ".toList, "c\n".toList, " s".toList) := by decide
  have h2 : cppSubAll " s".toList = " s".toList := cppSubAll_of_none (by decide)
  have h1 : cppSubAll " p ```cpp\nc\n``` s".toList = " p ".toList ++ " s".toList := by
    rw [cppSubAll_of_some hm, h2]
  constructor
  · simp only [extract_code_and_explanation, hm]
    decide
  · simp only [extract_code_and_explanation, hm, h1]
    decide

/-- Claim C8 amended: for a response of the constructed form
`prefix ++ " ```cpp\n" ++ CODE ++ "\n``` " ++ suffix` where none of the parts
contains a triple backtick, the prefix starts and the suffix ends with a
non-whitespace character, and CODE does not occur in
`prefix ++ "  " ++ suffix`: the improved code is CODE stripped, and the
explanation is exactly `prefix ++ "  " ++ suffix`, which contains the prefix
and the suffix and contains neither the fence delimiter nor CODE.  (Without
the extra whitespace and occurrence conditions the final conclusions can
fail, see the counterexample.) -/
theorem C8_amended (pre codeB suf : List Char)
    (hpt : strHas tickStr pre = false)
    (hct : strHas tickStr codeB = false)
    (hst : strHas tickStr suf = false)
    (hpre1 : pre ≠ []) (hpre2 : pre.dropWhile isSpaceChar = pre)
    (hsuf1 : suf ≠ []) (hsuf2 : suf.reverse.dropWhile isSpaceChar = suf.reverse)
    (hcr : strHas codeB (pre ++ ' ' :: ' ' :: suf) = false) :
    extract_code_and_explanation
        (pre ++ ' ' :: (cppOpener ++ (codeB ++ '\n' :: (tickStr ++ ' ' :: suf)))) =
      (pyStrip codeB, pre ++ ' ' :: ' ' :: suf) ∧
    strHas pre (pre ++ ' ' :: ' ' :: suf) = true ∧
    strHas suf (pre ++ ' ' :: ' ' :: suf) = true ∧
    strHas tickStr (pre ++ ' ' :: ' ' :: suf) = false ∧
    strHas codeB (pre ++ ' ' :: ' ' :: suf) = false := by
  have hz : codeB ++ '\n' :: (tickStr ++ ' ' :: suf) =
      (codeB ++ ['\n']) ++ (tickStr ++ ' ' :: suf) := by simp
  have hsp1 : splitFirst tickStr (tickStr ++ ' ' :: suf) = some ([], ' ' :: suf) :=
    splitFirst_self (by decide)
  have hsp2 : splitFirst tickStr (codeB ++ '\n' :: (tickStr ++ ' ' :: suf)) =
      some (codeB ++ ['\n'], ' ' :: suf) := by
    rw [hz, splitFirst_skip (no_tick_start_code hct), hsp1]
    simp
  have hm1 : cppMatch (cppOpener ++ (codeB ++ '\n' :: (tickStr ++ ' ' :: suf))) =
      some ([], codeB ++ ['\n'], ' ' :: suf) := cppMatch_self hsp2
  have htext : pre ++ ' ' :: (cppOpener ++ (codeB ++ '\n' :: (tickStr ++ ' ' :: suf))) =
      (pre ++ [' ']) ++ (cppOpener ++ (codeB ++ '\n' :: (tickStr ++ ' ' :: suf))) := by
    simp
  have hm : cppMatch
      (pre ++ ' ' :: (cppOpener ++ (codeB ++ '\n' :: (tickStr ++ ' ' :: suf)))) =
      some (pre ++ [' '], codeB ++ ['\n'], ' ' :: suf) := by
    rw [htext, cppMatch_skip (no_opener_start hpt), hm1]
    simp
  have hsub2 : cppSubAll (' ' :: suf) = ' ' :: suf :=
    cppSubAll_of_none (cppMatch_none_of_no_ticks (no_ticks_tail hst))
  have hsub : cppSubAll
      (pre ++ ' ' :: (cppOpener ++ (codeB ++ '\n' :: (tickStr ++ ' ' :: suf)))) =
      pre ++ ' ' :: ' ' :: suf := by
    rw [cppSubAll_of_some hm, hsub2]
    simp
  refine ⟨?_, ?_, ?_, no_ticks_join hpt hst, hcr⟩
  · simp only [extract_code_and_explanation, hm, hsub]
    rw [pyStrip_append_nl,
      pyStrip_clean_append pre suf hpre1 hpre2 hsuf1 hsuf2]
  · exact strHas_iff.mpr ⟨[], ' ' :: ' ' :: suf, by simp⟩
  · exact strHas_iff.mpr ⟨pre ++ [' ', ' '], [], by simp⟩

/-- Witness for C8 at a concrete constructed response. -/
theorem C8_amended_witness :
    extract_code_and_explanation
        ("Here is the improved code:".toList ++ ' ' ::
          (cppOpener ++ ("int y = 0;".toList ++ '\n' ::
            (tickStr ++ ' ' :: "The loop was hoisted.".toList)))) =
      (pyStrip "int y = 0;".toList,
        "Here is the improved code:".toList ++ ' ' :: ' ' ::
          "The loop was hoisted.".toList) ∧
    strHas "Here is the improved code:".toList
      ("Here is the improved code:".toList ++ ' ' :: ' ' ::
        "The loop was hoisted.".toList) = true ∧
    strHas "The loop was hoisted.".toList
      ("Here is the improved code:".toList ++ ' ' :: ' ' ::
        "The loop was hoisted.".toList) = true ∧
    strHas tickStr
      ("Here is the improved code:".toList ++ ' ' :: ' ' ::
        "The loop was hoisted.".toList) = false ∧
    strHas "int y = 0;".toList
      ("Here is the improved code:".toList ++ ' ' :: ' ' ::
        "The loop was hoisted.".toList) = false :=
  C8_amended "Here is the improved code:".toList "int y = 0;".toList
    "The loop was hoisted.".toList (by decide) (by decide) (by decide) (by decide)
    (by decide) (by decide) (by decide) (by decide)

end GameCode
